import Mathlib

/-!
Verification of the PDF chunking core of `python-api/lambda_function.py`.

The program turns positioned word and image items into an ordered list of
`SemanticChunk`s: words are sorted into reading order, grouped into lines,
accumulated into chunks with four split heuristics, oversized chunks are
re-split on sentence boundaries, images are deduplicated per page, and the
two chunk streams are merged and re-indexed globally.

Modelling conventions:
* Python strings are sequences of Unicode characters, modelled as `List Char`
  (`Str`).  `str.strip` / `str.lstrip` are modelled over the six ASCII
  whitespace characters Python recognises; `str.isdigit` / `str.isalpha` are
  modelled by the ASCII classifiers `Char.isDigit` / `Char.isAlpha`.
* The floats appearing in the chunker are finite coordinate values together
  with `math.inf` / `-math.inf` used only as the accumulator's initial
  bounding-box state, so they are modelled exactly by `PyFloat`
  (`ninf | fin ℚ | inf`); no NaN can arise in any of the modelled code paths.
* Python's stable `list.sort` is modelled by the stable insertion sort
  `sortLE` with the boolean "less or equal on the sort key" comparator
  (all stable sorts agree extensionally for a total transitive comparison).
-/

/- `Rat.add`/`Rat.sub`/`Rat.mul`/`Rat.inv` are `@[irreducible]` in the
library, which stops `decide` from evaluating the model on concrete rational
inputs; restore the default reducibility (the kernel never respected the
attribute, so proofs are unaffected). -/
set_option allowUnsafeReducibility true in
attribute [semireducible] Rat.add Rat.sub Rat.mul Rat.inv Rat.ofScientific

namespace PdfChunker

/-- Python strings, modelled as lists of characters. -/
abbrev Str := List Char

/-- The whitespace characters stripped by Python's `str.strip`/`str.lstrip`
(space, tab, linefeed, carriage return, vertical tab, form feed). -/
def pyIsSpace (c : Char) : Bool :=
  c = ' ' || c = '\t' || c = '\n' || c = '\r' || c = '\x0b' || c = '\x0c'

/-- Python `str.lstrip()`. -/
def pyLStrip (s : Str) : Str := s.dropWhile pyIsSpace

/-- Python `str.rstrip()`. -/
def pyRStrip (s : Str) : Str := (s.reverse.dropWhile pyIsSpace).reverse

/-- Python `str.strip()`. -/
def pyStrip (s : Str) : Str := pyRStrip (pyLStrip s)

/-- Python `" ".join(xs)`. -/
def pyJoinSp : List Str → Str
  | [] => []
  | [x] => x
  | x :: xs => x ++ ' ' :: pyJoinSp xs

/-- Helper for `pySplitSp`: the accumulator holds the current field reversed. -/
def pySplitSpAux : List Char → Str → List Str
  | [], cur => [cur.reverse]
  | c :: cs, cur =>
      if c = ' ' then cur.reverse :: pySplitSpAux cs []
      else pySplitSpAux cs (c :: cur)

/-- Python `s.split(" ")` (single-space separator; empty fields are kept,
and `"".split(" ") == [""]`). -/
def pySplitSp (s : Str) : List Str := pySplitSpAux s []

/-- Python `s.replace("\n", " ")`. -/
def pyReplaceNl (s : Str) : Str := s.map (fun c => if c = '\n' then ' ' else c)

/-- Python `s.endswith(c)` for a single character `c`. -/
def pyEndsWith (s : Str) (c : Char) : Bool := s.getLast? = some c

/-- `s.endswith(".") or s.endswith("!") or s.endswith("?")`, the sentence-end
test used both by the accumulator and by the oversize splitter. -/
def endsSentencePunct (s : Str) : Bool :=
  pyEndsWith s '.' || pyEndsWith s '!' || pyEndsWith s '?'

/-- A string with all whitespace characters removed; used to state
"ignoring whitespace" properties. -/
def stripWs (s : Str) : Str := s.filter (fun c => !pyIsSpace c)

/-- Insert `a` into `l` before the first element it compares `le` to.
Together with `sortLE` this is a stable sort; for a total transitive
comparison it computes the same list as Python's stable `list.sort`. -/
def insertLE (le : α → α → Bool) (a : α) : List α → List α
  | [] => [a]
  | b :: l => if le a b then a :: b :: l else b :: insertLE le a l

/-- Stable insertion sort with a boolean `<=` comparison; models Python's
stable `list.sort`/`sorted` with a key function. -/
def sortLE (le : α → α → Bool) : List α → List α
  | [] => []
  | a :: l => insertLE le a (sortLE le l)

/-- The float values occurring in the chunker: finite coordinates (exact
rationals) and the infinities `math.inf` / `-math.inf` that initialise the
accumulator's bounding box. -/
inductive PyFloat where
  | ninf : PyFloat
  | fin : ℚ → PyFloat
  | inf : PyFloat
deriving DecidableEq

/-- IEEE `<=` restricted to `PyFloat` (no NaN). -/
def PyFloat.ble : PyFloat → PyFloat → Bool
  | .ninf, _ => true
  | _, .inf => true
  | .fin a, .fin b => a ≤ b
  | _, _ => false

/-- IEEE `<` restricted to `PyFloat` (no NaN). -/
def PyFloat.blt : PyFloat → PyFloat → Bool
  | .ninf, .ninf => false
  | .ninf, _ => true
  | .fin a, .fin b => a < b
  | .fin _, .inf => true
  | _, _ => false

/-- Python `min(a, q)` where `a` may be the running (possibly infinite)
bound and `q` is a finite coordinate. -/
def PyFloat.pymin (a : PyFloat) (q : ℚ) : PyFloat :=
  if a.ble (.fin q) then a else .fin q

/-- Python `max(a, q)` where `a` may be the running (possibly infinite)
bound and `q` is a finite coordinate. -/
def PyFloat.pymax (a : PyFloat) (q : ℚ) : PyFloat :=
  if (PyFloat.fin q).ble a then a else .fin q

/-- Is this float finite? -/
def PyFloat.isFin : PyFloat → Bool
  | .fin _ => true
  | _ => false

/-- Python `int(q)` for a float, truncation toward zero. -/
def pyInt (q : ℚ) : Int := if q < 0 then -((-q).floor) else q.floor

/-- `TextItem` from the source: one extracted word with its box. -/
structure TextItem where
  text : Str
  x : ℚ
  y : ℚ
  width : ℚ
  height : ℚ
  pageNumber : ℕ
deriving DecidableEq

/-- `ImageItem` from the source: one placed image rectangle. -/
structure ImageItem where
  x : ℚ
  y : ℚ
  width : ℚ
  height : ℚ
  pageNumber : ℕ
  obj_name : Str
deriving DecidableEq

/-- `SemanticChunk` from the source. -/
structure SemanticChunk where
  content : Str
  page_number : ℕ
  x_min : PyFloat
  x_max : PyFloat
  y_min : PyFloat
  y_max : PyFloat
  chunk_index : ℕ
  is_image : Bool
deriving DecidableEq

/-- The sort key comparison of `sort_reading_order`: Python's stable sort
with key `(it.y, it.x)`. -/
def txtLE (a b : TextItem) : Bool :=
  decide (a.y < b.y) || (decide (a.y = b.y) && decide (a.x ≤ b.x))

/-- `sort_reading_order` from the source. -/
def sort_reading_order (items : List TextItem) : List TextItem :=
  sortLE txtLE items

/-- The per-line sort key comparison: Python's stable sort with key `t.x`. -/
def xLE (a b : TextItem) : Bool := decide (a.x ≤ b.x)

/-- The loop of `group_into_lines`: `lines` is the finished-lines list,
`current` the open line and `current_y` the open line's anchor y
(`None` exactly while no line is open, as in the source). -/
def gilLoop (tol : ℚ) : List TextItem → List (List TextItem) → List TextItem →
    Option ℚ → List (List TextItem)
  | [], lines, current, _ =>
      if current = [] then lines else lines ++ [current]
  | it :: rest, lines, current, current_y =>
      if current = [] then gilLoop tol rest lines [it] (some it.y)
      else if (match current_y with
               | none => true
               | some cy => decide (|it.y - cy| > tol)) then
        gilLoop tol rest (lines ++ [current]) [it] (some it.y)
      else
        gilLoop tol rest lines (current ++ [it]) current_y

/-- `group_into_lines` from the source: cluster items into y-bands and sort
each completed line by x. -/
def group_into_lines (items : List TextItem) (line_tolerance : ℚ) :
    List (List TextItem) :=
  (gilLoop line_tolerance items [] [] none).map (fun line => sortLE xLE line)

/-- The bullet-glyph literal exactly as the source file stores it: the UTF-8
bytes of U+2022 were double-encoded, so the Python string literal holds the
three characters U+00E2, U+20AC, U+00A2 followed by a space, not `"• "`. -/
def bulletGlyphLit : Str := ['â', '€', '¢', ' ']

/-- `is_bullet_line` from the source. -/
def is_bullet_line (line_text : Str) : Bool :=
  let s := pyLStrip line_text
  bulletGlyphLit.isPrefixOf s
  || ['-', ' '].isPrefixOf s
  || ['*', ' '].isPrefixOf s
  || (match s with
      | c1 :: c2 :: c3 :: _ =>
          c1.isDigit && ((c2 = '.' && c3 = ' ') || (c2 = ')' && c3 = ' '))
      | _ => false)
  || (match s with
      | c1 :: c2 :: c3 :: _ =>
          c1.isAlpha && ((c2 = '.' && c3 = ' ') || (c2 = ')' && c3 = ' '))
      | _ => false)

/-- The mutable state of `create_semantic_chunks_for_page`'s accumulation
loop: finished chunks, the next provisional chunk index, the pending items,
the running bounding box and the previous line's bottom edge. -/
structure AccState where
  chunks : List SemanticChunk
  chunk_index : ℕ
  cur_text_items : List TextItem
  x_min : PyFloat
  x_max : PyFloat
  y_min : PyFloat
  y_max : PyFloat
  prev_line_bottom : Option ℚ
deriving DecidableEq

/-- The accumulator's initial state (`math.inf` / `-math.inf` bounding box). -/
def initAccState : AccState :=
  ⟨[], 0, [], .inf, .ninf, .inf, .ninf, none⟩

/-- The text of the pending accumulator items, joined and stripped, as
computed by `flush_chunk` and by the loop's `current_text`. -/
def joinedText (items : List TextItem) : Str :=
  pyStrip (pyJoinSp (items.map (fun t => t.text)))

/-- `flush_chunk` from the source: emit the pending items as a chunk when
their joined text is non-empty, then reset the pending state. -/
def flush_chunk (page_number : ℕ) (st : AccState) : AccState :=
  let content := joinedText st.cur_text_items
  let st' :=
    if content ≠ [] then
      { st with
        chunks := st.chunks ++
          [⟨content, page_number, st.x_min, st.x_max, st.y_min, st.y_max,
            st.chunk_index, false⟩],
        chunk_index := st.chunk_index + 1 }
    else st
  { st' with
    cur_text_items := [], x_min := .inf, x_max := .ninf,
    y_min := .inf, y_max := .ninf }

/-- `min(t.y for t in line)`; only used on non-empty lines. -/
def lineTop : List TextItem → ℚ
  | [] => 0
  | t :: ts => (ts.map (fun u => u.y)).foldl min t.y

/-- `max((t.height for t in line), default=10.0)`. -/
def lineMaxHeight : List TextItem → ℚ
  | [] => 10
  | t :: ts => (ts.map (fun u => u.height)).foldl max t.height

/-- `max((t.y + t.height for t in line), default=prev_line_bottom)`, guarded
by `if line:` in the source. -/
def lineBottom : List TextItem → Option ℚ → Option ℚ
  | [], pb => pb
  | t :: ts, _ =>
      some ((ts.map (fun u => u.y + u.height)).foldl max (t.y + t.height))

/-- The paragraph-break heuristic of the accumulation loop: a vertical gap
from the previous line's bottom larger than twice the line's height. -/
def paragraph_break (prev_line_bottom : Option ℚ) (line : List TextItem) : Bool :=
  match prev_line_bottom, line with
  | some pb, t :: ts =>
      let gap := lineTop (t :: ts) - pb
      decide (gap > lineMaxHeight (t :: ts) * 2)
  | _, _ => false

/-- The body of the `for it in line` loop: append one word and grow the
running bounding box. -/
def addItem (s : AccState) (it : TextItem) : AccState :=
  { s with
    cur_text_items := s.cur_text_items ++ [it],
    x_min := s.x_min.pymin it.x,
    x_max := s.x_max.pymax (it.x + it.width),
    y_min := s.y_min.pymin it.y,
    y_max := s.y_max.pymax (it.y + it.height) }

/-- The `for it in line` loop of the accumulation step. -/
def addLine (st : AccState) (line : List TextItem) : AccState :=
  line.foldl addItem st

/-- The candidate concatenated text of the accumulation loop
(`new_text = (current_text + " " + line_text).strip() if current_text else line_text`). -/
def candidateText (st : AccState) (line : List TextItem) : Str :=
  let line_text := pyStrip (pyJoinSp (line.map (fun t => t.text)))
  let current_text := joinedText st.cur_text_items
  if current_text ≠ [] then pyStrip (current_text ++ ' ' :: line_text) else line_text

/-- One iteration of the `for line in lines` loop of
`create_semantic_chunks_for_page`. -/
def stepLine (page_number : ℕ) (max_chars : ℕ) (st : AccState)
    (line : List TextItem) : AccState :=
  let line_text := pyStrip (pyJoinSp (line.map (fun t => t.text)))
  let current_text := joinedText st.cur_text_items
  let new_text := candidateText st line
  let bullet := is_bullet_line line_text
  let para := paragraph_break st.prev_line_bottom line
  let exceeds := decide (new_text.length > max_chars)
  let ends := if current_text ≠ [] then endsSentencePunct current_text else false
  let should_split := !st.cur_text_items.isEmpty && (bullet || para || exceeds || ends)
  let st1 := if should_split then flush_chunk page_number st else st
  let st2 := addLine st1 line
  { st2 with prev_line_bottom := lineBottom line st2.prev_line_bottom }

/-- Lines 217–296 of the source: sort, group into lines, run the
accumulation loop and flush the remainder. -/
def accumulate_page_chunks (page_items : List TextItem) (page_number : ℕ)
    (max_chars : ℕ) : List SemanticChunk :=
  let lines := group_into_lines (sort_reading_order page_items) 5
  let st := lines.foldl (stepLine page_number max_chars) initAccState
  (if st.cur_text_items ≠ [] then flush_chunk page_number st else st).chunks

/-- The token loop of the oversize splitter (lines 307–314): returns the
sealed parts and the final buffer. -/
def splitLoop : List Str → Str → List Str → List Str × Str
  | [], buf, parts => (parts, buf)
  | token :: rest, buf, parts =>
      if token = [] then splitLoop rest buf parts
      else
        let buf' := pyStrip (buf ++ ' ' :: token)
        if 120 ≤ buf'.length && endsSentencePunct buf' then
          splitLoop rest [] (parts ++ [buf'])
        else
          splitLoop rest buf' parts

/-- The oversize splitter applied to one chunk's content: sealed parts plus
the leftover buffer (appended as a final part when non-empty). -/
def splitOversize (content : Str) : List Str × Str :=
  splitLoop (pySplitSp (pyReplaceNl content)) [] []

/-- All parts the splitter produces for one oversized content: the sealed
parts followed by the leftover-flush part when the buffer is non-empty. -/
def oversizeParts (content : Str) : List Str :=
  (splitOversize content).1 ++
    (if (splitOversize content).2 ≠ [] then [(splitOversize content).2] else [])

/-- Lines 299–331 of the source applied to one chunk: keep chunks at or
under budget, otherwise replace them by the split parts inheriting the
parent's bounding box and page. -/
def postProcessChunk (max_chars : ℕ) (ch : SemanticChunk) : List SemanticChunk :=
  if ch.content.length ≤ max_chars then [ch]
  else
    (oversizeParts ch.content).map (fun p =>
      ⟨pyStrip p, ch.page_number, ch.x_min, ch.x_max, ch.y_min, ch.y_max,
        0, false⟩)

/-- Sequential re-indexing (`for idx, ch in enumerate(...): ch.chunk_index = idx`). -/
def reindexFrom (n : ℕ) : List SemanticChunk → List SemanticChunk
  | [] => []
  | c :: cs => { c with chunk_index := n } :: reindexFrom (n + 1) cs

/-- `create_semantic_chunks_for_page` from the source: accumulate, split
oversized chunks, re-index. -/
def create_semantic_chunks_for_page (page_items : List TextItem)
    (page_number : ℕ) (max_chars : ℕ) : List SemanticChunk :=
  reindexFrom 0
    ((accumulate_page_chunks page_items page_number max_chars).flatMap
      (postProcessChunk max_chars))

/-- The center-proximity duplicate test of `create_image_chunks`
(`position_tolerance = 15.0`). -/
def imgCenterClose (e img : ImageItem) : Bool :=
  decide (|e.x + e.width / 2 - (img.x + img.width / 2)| < 15) &&
  decide (|e.y + e.height / 2 - (img.y + img.height / 2)| < 15)

/-- The deduplication loop of `create_image_chunks`: keep an image iff no
already-kept image is center-close to it. -/
def dedupImages (acc : List ImageItem) : List ImageItem → List ImageItem
  | [] => acc
  | img :: rest =>
      if acc.any (fun e => imgCenterClose e img) then dedupImages acc rest
      else dedupImages (acc ++ [img]) rest

/-- The per-page image sort key comparison (`key=lambda img: (img.y, img.x)`). -/
def imgLE (a b : ImageItem) : Bool :=
  decide (a.y < b.y) || (decide (a.y = b.y) && decide (a.x ≤ b.x))

/-- The distinct page numbers of a list of images, ascending
(`sorted(by_page.keys())`). -/
def imagePages (items : List ImageItem) : List ℕ :=
  (sortLE (fun a b => decide (a ≤ b)) (items.map (fun i => i.pageNumber))).dedup

/-- The chunk built for one surviving image (content string, rectangle box). -/
def mkImageChunk (image : ImageItem) : SemanticChunk :=
  ⟨"[Image: ".data ++ image.obj_name ++ " at position (".data ++
      (toString (pyInt image.x)).data ++ ", ".data ++
      (toString (pyInt image.y)).data ++ ") with dimensions ".data ++
      (toString (pyInt image.width)).data ++ "x".data ++
      (toString (pyInt image.height)).data ++ "]".data,
    image.pageNumber,
    .fin image.x, .fin (image.x + image.width),
    .fin image.y, .fin (image.y + image.height),
    0, true⟩

/-- `create_image_chunks` from the source. -/
def create_image_chunks (image_items : List ImageItem) : List SemanticChunk :=
  (imagePages image_items).flatMap (fun p =>
    let page_images := image_items.filter (fun i => i.pageNumber == p)
    let sorted_images := sortLE imgLE page_images
    (dedupImages [] sorted_images).map mkImageChunk)

/-- The sort key of `merge_chunks_in_reading_order`
(`key=lambda c: (c.page_number, c.y_min, c.x_min)`). -/
def chunkKey (c : SemanticChunk) : ℕ × PyFloat × PyFloat :=
  (c.page_number, c.y_min, c.x_min)

/-- Lexicographic `<=` on the key triples, as Python compares key tuples. -/
def keyLE (a b : ℕ × PyFloat × PyFloat) : Bool :=
  decide (a.1 < b.1)
  || (decide (a.1 = b.1)
      && (a.2.1.blt b.2.1
          || (decide (a.2.1 = b.2.1) && a.2.2.ble b.2.2)))

/-- The merge sort comparison of `merge_chunks_in_reading_order`. -/
def chunkLE (c d : SemanticChunk) : Bool :=
  keyLE (chunkKey c) (chunkKey d)

/-- `merge_chunks_in_reading_order` from the source. -/
def merge_chunks_in_reading_order (text_chunks image_chunks : List SemanticChunk) :
    List SemanticChunk :=
  reindexFrom 0 (sortLE chunkLE (text_chunks ++ image_chunks))

/-- The distinct page numbers of a list of words, ascending
(`sorted(by_page.keys())` in `create_chunks`). -/
def textPages (items : List TextItem) : List ℕ :=
  (sortLE (fun a b => decide (a ≤ b)) (items.map (fun i => i.pageNumber))).dedup

/-- `create_chunks` from the source: per-page text chunks, image chunks,
global merge; also returns `pages_processed`. -/
def create_chunks (text_items : List TextItem) (image_items : List ImageItem)
    (max_chars : ℕ) : List SemanticChunk × ℕ :=
  let text_chunks := (textPages text_items).flatMap (fun p =>
    create_semantic_chunks_for_page
      (text_items.filter (fun i => i.pageNumber == p)) p max_chars)
  let image_chunks := create_image_chunks image_items
  (merge_chunks_in_reading_order text_chunks image_chunks,
   (textPages text_items).length)

/-- Claim-side restatement of the line grouper: walk the items keeping the
*first* item's y of the open line as the anchor; start a new line exactly
when the current item's y differs from the anchor by more than `tol`. -/
def linesClaimGo (tol : ℚ) (anchor : ℚ) (cur : List TextItem) :
    List TextItem → List (List TextItem)
  | [] => [cur]
  | it :: rest =>
      if |it.y - anchor| > tol then cur :: linesClaimGo tol it.y [it] rest
      else linesClaimGo tol anchor (cur ++ [it]) rest

/-- Claim-side restatement of the line grouper, entry point. -/
def linesClaim (tol : ℚ) : List TextItem → List (List TextItem)
  | [] => []
  | it :: rest => linesClaimGo tol it.y [it] rest

/-- Claim-side restatement of the image deduplication: an image is retained
iff no earlier-retained image has both center coordinates within the
tolerance; returns the retained images in order, given the already-kept
images `kept`. -/
def retainedClaim (kept : List ImageItem) : List ImageItem → List ImageItem
  | [] => []
  | img :: rest =>
      if kept.all (fun e => !imgCenterClose e img) then
        img :: retainedClaim (kept ++ [img]) rest
      else retainedClaim kept rest

/-- Bounding-box validity of an emitted chunk: all four fields finite and
`x_min <= x_max`, `y_min <= y_max`. -/
def boxValid (c : SemanticChunk) : Bool :=
  c.x_min.isFin && c.x_max.isFin && c.y_min.isFin && c.y_max.isFin &&
  c.x_min.ble c.x_max && c.y_min.ble c.y_max

/-- Python truthiness of an optional string (`None` and `""` are falsy). -/
def pyTruthyStr : Option Str → Bool
  | none => false
  | some s => !s.isEmpty

/-- The two outcomes of the handler's authentication gate. -/
inductive AuthOutcome where
  | unauthorized : AuthOutcome
  | proceeds : AuthOutcome
deriving DecidableEq

/-- The authentication gate of `handler` (lines 462–470):
`if expected and provided != expected: return 401`. -/
def handler_auth (expected provided : Option Str) : AuthOutcome :=
  if pyTruthyStr expected && decide (provided ≠ expected) then .unauthorized
  else .proceeds

/-! ## Order lemmas for the float model and the merge comparator -/

theorem PyFloat.blt_trans {a b c : PyFloat} (h1 : a.blt b = true)
    (h2 : b.blt c = true) : a.blt c = true := by
  cases a <;> cases b <;> cases c <;> simp_all [PyFloat.blt] <;> linarith

theorem PyFloat.ble_iff {a b : PyFloat} :
    a.ble b = true ↔ (a.blt b = true ∨ a = b) := by
  cases a <;> cases b <;> simp [PyFloat.ble, PyFloat.blt, le_iff_lt_or_eq]

theorem PyFloat.blt_trichot (a b : PyFloat) :
    a.blt b = true ∨ a = b ∨ b.blt a = true := by
  cases a <;> cases b <;> simp [PyFloat.blt] <;> exact lt_trichotomy _ _

theorem PyFloat.ble_trans {a b c : PyFloat} (h1 : a.ble b = true)
    (h2 : b.ble c = true) : a.ble c = true := by
  rcases PyFloat.ble_iff.1 h1 with h1' | rfl
  · rcases PyFloat.ble_iff.1 h2 with h2' | rfl
    · exact PyFloat.ble_iff.2 (Or.inl (PyFloat.blt_trans h1' h2'))
    · exact PyFloat.ble_iff.2 (Or.inl h1')
  · exact h2

theorem PyFloat.ble_total (a b : PyFloat) :
    a.ble b = true ∨ b.ble a = true := by
  cases a <;> cases b <;> simp [PyFloat.ble] <;> exact le_total _ _

theorem keyLE_trans {a b c : ℕ × PyFloat × PyFloat} (h1 : keyLE a b = true)
    (h2 : keyLE b c = true) : keyLE a c = true := by
  simp only [keyLE, Bool.or_eq_true, Bool.and_eq_true, decide_eq_true_eq] at h1 h2 ⊢
  rcases h1 with h1 | ⟨e1, h1⟩
  · rcases h2 with h2 | ⟨e2, h2⟩
    · exact Or.inl (lt_trans h1 h2)
    · exact Or.inl (e2 ▸ h1)
  · rcases h2 with h2 | ⟨e2, h2⟩
    · exact Or.inl (e1 ▸ h2)
    · refine Or.inr ⟨e1.trans e2, ?_⟩
      rcases h1 with h1 | ⟨ey1, hx1⟩
      · rcases h2 with h2 | ⟨ey2, hx2⟩
        · exact Or.inl (PyFloat.blt_trans h1 h2)
        · exact Or.inl (ey2 ▸ h1)
      · rcases h2 with h2 | ⟨ey2, hx2⟩
        · exact Or.inl (ey1 ▸ h2)
        · exact Or.inr ⟨ey1.trans ey2, PyFloat.ble_trans hx1 hx2⟩

theorem keyLE_total (a b : ℕ × PyFloat × PyFloat) :
    (keyLE a b || keyLE b a) = true := by
  simp only [keyLE, Bool.or_eq_true, Bool.and_eq_true, decide_eq_true_eq]
  rcases Nat.lt_trichotomy a.1 b.1 with h | h | h
  · exact Or.inl (Or.inl h)
  · rcases PyFloat.blt_trichot a.2.1 b.2.1 with hy | hy | hy
    · exact Or.inl (Or.inr ⟨h, Or.inl hy⟩)
    · rcases PyFloat.ble_total a.2.2 b.2.2 with hx | hx
      · exact Or.inl (Or.inr ⟨h, Or.inr ⟨hy, hx⟩⟩)
      · exact Or.inr (Or.inr ⟨h.symm, Or.inr ⟨hy.symm, hx⟩⟩)
    · exact Or.inr (Or.inr ⟨h.symm, Or.inl hy⟩)
  · exact Or.inr (Or.inl h)

theorem chunkLE_trans (a b c : SemanticChunk) (h1 : chunkLE a b)
    (h2 : chunkLE b c) : chunkLE a c :=
  keyLE_trans h1 h2

theorem chunkLE_total (a b : SemanticChunk) : (chunkLE a b || chunkLE b a) = true :=
  keyLE_total (chunkKey a) (chunkKey b)

theorem chunkLE_eq_true_iff {c d : SemanticChunk} :
    chunkLE c d = true ↔
      (c.page_number < d.page_number ∨
       (c.page_number = d.page_number ∧ c.y_min.blt d.y_min = true) ∨
       (c.page_number = d.page_number ∧ c.y_min = d.y_min ∧
        c.x_min.ble d.x_min = true)) := by
  simp only [chunkLE, keyLE, chunkKey, Bool.or_eq_true, Bool.and_eq_true,
    decide_eq_true_eq]
  tauto

/-! ## Sorting lemmas -/

theorem mem_insertLE {le : α → α → Bool} {a x : α} {l : List α} :
    x ∈ insertLE le a l ↔ x = a ∨ x ∈ l := by
  induction l with
  | nil => simp [insertLE]
  | cons b l ih =>
    by_cases h : le a b
    · simp [insertLE, h]
    · simp only [insertLE, if_neg h, List.mem_cons, ih]
      tauto

theorem mem_sortLE {le : α → α → Bool} {x : α} {l : List α} :
    x ∈ sortLE le l ↔ x ∈ l := by
  induction l with
  | nil => simp [sortLE]
  | cons a l ih => simp [sortLE, mem_insertLE, ih]

theorem length_insertLE (le : α → α → Bool) (a : α) (l : List α) :
    (insertLE le a l).length = l.length + 1 := by
  induction l with
  | nil => rfl
  | cons b l ih =>
    by_cases h : le a b <;> simp [insertLE, h, ih]

theorem length_sortLE (le : α → α → Bool) (l : List α) :
    (sortLE le l).length = l.length := by
  induction l with
  | nil => rfl
  | cons a l ih => simp [sortLE, length_insertLE, ih]

theorem pairwise_insertLE {le : α → α → Bool}
    (total : ∀ a b, (le a b || le b a) = true)
    (trans : ∀ a b c, le a b = true → le b c = true → le a c = true)
    (a : α) {l : List α} (h : l.Pairwise (fun x y => le x y = true)) :
    (insertLE le a l).Pairwise (fun x y => le x y = true) := by
  induction l with
  | nil => simp [insertLE]
  | cons b l ih =>
    rcases List.pairwise_cons.1 h with ⟨hb, hl⟩
    by_cases hab : le a b = true
    · rw [insertLE, if_pos hab]
      refine List.pairwise_cons.2 ⟨?_, h⟩
      intro y hy
      rcases List.mem_cons.1 hy with heq | hy
      · rw [heq]
        exact hab
      · exact trans a b y hab (hb y hy)
    · rw [insertLE, if_neg hab]
      refine List.pairwise_cons.2 ⟨?_, ih hl⟩
      intro y hy
      rcases mem_insertLE.1 hy with heq | hy
      · rw [heq]
        have := total a b
        simp [hab] at this
        exact this
      · exact hb y hy

theorem pairwise_sortLE {le : α → α → Bool}
    (total : ∀ a b, (le a b || le b a) = true)
    (trans : ∀ a b c, le a b = true → le b c = true → le a c = true)
    (l : List α) :
    (sortLE le l).Pairwise (fun x y => le x y = true) := by
  induction l with
  | nil => simp [sortLE]
  | cons a l ih => exact pairwise_insertLE total trans a ih

/-! ## Re-indexing lemmas -/

theorem reindexFrom_length (n : ℕ) (l : List SemanticChunk) :
    (reindexFrom n l).length = l.length := by
  induction l generalizing n with
  | nil => rfl
  | cons c cs ih => simp [reindexFrom, ih]

theorem reindexFrom_map_chunkKey (n : ℕ) (l : List SemanticChunk) :
    (reindexFrom n l).map chunkKey = l.map chunkKey := by
  induction l generalizing n with
  | nil => rfl
  | cons c cs ih => simp [reindexFrom, ih, chunkKey]

theorem reindexFrom_get_index (n : ℕ) (l : List SemanticChunk) (k : ℕ)
    (h : k < (reindexFrom n l).length) :
    ((reindexFrom n l).get ⟨k, h⟩).chunk_index = n + k := by
  induction l generalizing n k with
  | nil => simp [reindexFrom] at h
  | cons c cs ih =>
    cases k with
    | zero => rfl
    | succ k =>
      have hh : k + 1 < (reindexFrom (n + 1) cs).length + 1 := by
        simpa [reindexFrom] using h
      have h' : k < (reindexFrom (n + 1) cs).length := Nat.lt_of_succ_lt_succ hh
      have : ((reindexFrom (n + 1) cs).get ⟨k, h'⟩).chunk_index = (n + 1) + k :=
        ih (n + 1) k h'
      calc ((reindexFrom n (c :: cs)).get ⟨k + 1, h⟩).chunk_index
          = ((reindexFrom (n + 1) cs).get ⟨k, h'⟩).chunk_index := rfl
        _ = (n + 1) + k := this
        _ = n + (k + 1) := by omega

theorem reindexFrom_pairwise (n : ℕ) (l : List SemanticChunk)
    (h : l.Pairwise (fun a b => chunkLE a b = true)) :
    (reindexFrom n l).Pairwise (fun a b => chunkLE a b = true) := by
  have h' : (l.map chunkKey).Pairwise (fun a b => keyLE a b = true) :=
    List.pairwise_map.2 (by simpa [chunkLE] using h)
  have h'' : ((reindexFrom n l).map chunkKey).Pairwise
      (fun a b => keyLE a b = true) := by
    rw [reindexFrom_map_chunkKey]; exact h'
  have := List.pairwise_map.1 h''
  simpa [chunkLE] using this

/-- C1: the merged sequence is re-indexed so that the chunk_index values
form the contiguous range 0..N-1 in list order (every position k carries
index k), and it is sorted by (page, y_min, x_min): for i<j, either the page
strictly increases, or pages tie and y_min strictly increases, or pages and
y_min tie and x_min does not decrease. -/
theorem merge_chunks_reading_order_sorted (t i : List SemanticChunk) :
    (∀ (k : ℕ) (hk : k < (merge_chunks_in_reading_order t i).length),
      ((merge_chunks_in_reading_order t i).get ⟨k, hk⟩).chunk_index = k) ∧
    (∀ (a b : ℕ) (ha : a < (merge_chunks_in_reading_order t i).length)
      (hb : b < (merge_chunks_in_reading_order t i).length), a < b →
      (((merge_chunks_in_reading_order t i).get ⟨a, ha⟩).page_number <
         ((merge_chunks_in_reading_order t i).get ⟨b, hb⟩).page_number ∨
       (((merge_chunks_in_reading_order t i).get ⟨a, ha⟩).page_number =
          ((merge_chunks_in_reading_order t i).get ⟨b, hb⟩).page_number ∧
        ((merge_chunks_in_reading_order t i).get ⟨a, ha⟩).y_min.blt
          ((merge_chunks_in_reading_order t i).get ⟨b, hb⟩).y_min = true) ∨
       (((merge_chunks_in_reading_order t i).get ⟨a, ha⟩).page_number =
          ((merge_chunks_in_reading_order t i).get ⟨b, hb⟩).page_number ∧
        ((merge_chunks_in_reading_order t i).get ⟨a, ha⟩).y_min =
          ((merge_chunks_in_reading_order t i).get ⟨b, hb⟩).y_min ∧
        ((merge_chunks_in_reading_order t i).get ⟨a, ha⟩).x_min.ble
          ((merge_chunks_in_reading_order t i).get ⟨b, hb⟩).x_min = true))) := by
  constructor
  · intro k hk
    have := reindexFrom_get_index 0 (sortLE chunkLE (t ++ i)) k
      (by simpa [merge_chunks_in_reading_order] using hk)
    simpa [merge_chunks_in_reading_order] using this
  · intro a b ha hb hab
    have hsorted : (sortLE chunkLE (t ++ i)).Pairwise
        (fun a b => chunkLE a b = true) :=
      pairwise_sortLE chunkLE_total chunkLE_trans (t ++ i)
    have hpair : (merge_chunks_in_reading_order t i).Pairwise
        (fun a b => chunkLE a b = true) :=
      reindexFrom_pairwise 0 _ hsorted
    have hrel := List.pairwise_iff_get.1 hpair ⟨a, ha⟩ ⟨b, hb⟩ hab
    exact chunkLE_eq_true_iff.1 hrel

/-- Closed witness for `merge_chunks_reading_order_sorted` at a concrete
two-chunk input: the index conjunct is checked at every position of the
output (0 and the last position 1) and the ordering conjunct at the pair
0 < 1. -/
theorem merge_chunks_reading_order_sorted_witness :
    ((merge_chunks_in_reading_order
        [⟨['t'], 1, .fin 0, .fin 1, .fin 50, .fin 51, 7, false⟩]
        [⟨['i'], 1, .fin 0, .fin 1, .fin 10, .fin 11, 3, true⟩]).get
      ⟨0, by decide⟩).chunk_index = 0 ∧
    ((merge_chunks_in_reading_order
        [⟨['t'], 1, .fin 0, .fin 1, .fin 50, .fin 51, 7, false⟩]
        [⟨['i'], 1, .fin 0, .fin 1, .fin 10, .fin 11, 3, true⟩]).get
      ⟨1, by decide⟩).chunk_index = 1 ∧
    (((merge_chunks_in_reading_order
        [⟨['t'], 1, .fin 0, .fin 1, .fin 50, .fin 51, 7, false⟩]
        [⟨['i'], 1, .fin 0, .fin 1, .fin 10, .fin 11, 3, true⟩]).get
      ⟨0, by decide⟩).page_number <
       ((merge_chunks_in_reading_order
        [⟨['t'], 1, .fin 0, .fin 1, .fin 50, .fin 51, 7, false⟩]
        [⟨['i'], 1, .fin 0, .fin 1, .fin 10, .fin 11, 3, true⟩]).get
      ⟨1, by decide⟩).page_number ∨
     (((merge_chunks_in_reading_order
        [⟨['t'], 1, .fin 0, .fin 1, .fin 50, .fin 51, 7, false⟩]
        [⟨['i'], 1, .fin 0, .fin 1, .fin 10, .fin 11, 3, true⟩]).get
      ⟨0, by decide⟩).page_number =
        ((merge_chunks_in_reading_order
        [⟨['t'], 1, .fin 0, .fin 1, .fin 50, .fin 51, 7, false⟩]
        [⟨['i'], 1, .fin 0, .fin 1, .fin 10, .fin 11, 3, true⟩]).get
      ⟨1, by decide⟩).page_number ∧
      ((merge_chunks_in_reading_order
        [⟨['t'], 1, .fin 0, .fin 1, .fin 50, .fin 51, 7, false⟩]
        [⟨['i'], 1, .fin 0, .fin 1, .fin 10, .fin 11, 3, true⟩]).get
      ⟨0, by decide⟩).y_min.blt
        ((merge_chunks_in_reading_order
        [⟨['t'], 1, .fin 0, .fin 1, .fin 50, .fin 51, 7, false⟩]
        [⟨['i'], 1, .fin 0, .fin 1, .fin 10, .fin 11, 3, true⟩]).get
      ⟨1, by decide⟩).y_min = true) ∨
     (((merge_chunks_in_reading_order
        [⟨['t'], 1, .fin 0, .fin 1, .fin 50, .fin 51, 7, false⟩]
        [⟨['i'], 1, .fin 0, .fin 1, .fin 10, .fin 11, 3, true⟩]).get
      ⟨0, by decide⟩).page_number =
        ((merge_chunks_in_reading_order
        [⟨['t'], 1, .fin 0, .fin 1, .fin 50, .fin 51, 7, false⟩]
        [⟨['i'], 1, .fin 0, .fin 1, .fin 10, .fin 11, 3, true⟩]).get
      ⟨1, by decide⟩).page_number ∧
      ((merge_chunks_in_reading_order
        [⟨['t'], 1, .fin 0, .fin 1, .fin 50, .fin 51, 7, false⟩]
        [⟨['i'], 1, .fin 0, .fin 1, .fin 10, .fin 11, 3, true⟩]).get
      ⟨0, by decide⟩).y_min =
        ((merge_chunks_in_reading_order
        [⟨['t'], 1, .fin 0, .fin 1, .fin 50, .fin 51, 7, false⟩]
        [⟨['i'], 1, .fin 0, .fin 1, .fin 10, .fin 11, 3, true⟩]).get
      ⟨1, by decide⟩).y_min ∧
      ((merge_chunks_in_reading_order
        [⟨['t'], 1, .fin 0, .fin 1, .fin 50, .fin 51, 7, false⟩]
        [⟨['i'], 1, .fin 0, .fin 1, .fin 10, .fin 11, 3, true⟩]).get
      ⟨0, by decide⟩).x_min.ble
        ((merge_chunks_in_reading_order
        [⟨['t'], 1, .fin 0, .fin 1, .fin 50, .fin 51, 7, false⟩]
        [⟨['i'], 1, .fin 0, .fin 1, .fin 10, .fin 11, 3, true⟩]).get
      ⟨1, by decide⟩).x_min = true)) :=
  ⟨(merge_chunks_reading_order_sorted
      [⟨['t'], 1, .fin 0, .fin 1, .fin 50, .fin 51, 7, false⟩]
      [⟨['i'], 1, .fin 0, .fin 1, .fin 10, .fin 11, 3, true⟩]).1
     0 (by decide),
   (merge_chunks_reading_order_sorted
      [⟨['t'], 1, .fin 0, .fin 1, .fin 50, .fin 51, 7, false⟩]
      [⟨['i'], 1, .fin 0, .fin 1, .fin 10, .fin 11, 3, true⟩]).1
     1 (by decide),
   (merge_chunks_reading_order_sorted
      [⟨['t'], 1, .fin 0, .fin 1, .fin 50, .fin 51, 7, false⟩]
      [⟨['i'], 1, .fin 0, .fin 1, .fin 10, .fin 11, 3, true⟩]).2
     0 1 (by decide) (by decide) (by decide)⟩

/-- C8 (code bug): the source's bullet-glyph literal is a double-encoded
(mojibake) rendering of U+2022, so a line that really starts with the bullet
glyph `"• "` is rejected, while a line starting with the mojibake sequence
is accepted. -/
theorem is_bullet_line_bullet_glyph_rejected :
    is_bullet_line ("• item".data) = false ∧
    is_bullet_line (bulletGlyphLit ++ ("item".data)) = true ∧
    pyLStrip ("• item".data) = "• item".data := by decide

/-- C10: the authentication gate returns 401 iff the shared-secret
environment variable is set to a non-empty value and the provided header
differs from it; an unset or empty secret skips the check entirely. -/
theorem handler_auth_unauthorized_iff (expected provided : Option Str) :
    (handler_auth expected provided = .unauthorized ↔
      ∃ s, expected = some s ∧ s ≠ [] ∧ provided ≠ some s) ∧
    ((expected = none ∨ expected = some []) →
      handler_auth expected provided = .proceeds) := by
  constructor
  · cases expected with
    | none => simp [handler_auth, pyTruthyStr]
    | some s =>
      by_cases hs : s = []
      · subst hs
        simp [handler_auth, pyTruthyStr]
      · by_cases hp : provided = some s
        · subst hp
          simp [handler_auth, pyTruthyStr, hs]
        · simp [handler_auth, pyTruthyStr, hs, hp,
            List.isEmpty_iff]
  · rintro (rfl | rfl) <;> simp [handler_auth, pyTruthyStr]

/-- Closed witness for `handler_auth_unauthorized_iff`. -/
theorem handler_auth_unauthorized_iff_witness :
    handler_auth (some ['s']) none = .unauthorized ∧
    handler_auth none none = .proceeds :=
  ⟨(handler_auth_unauthorized_iff (some ['s']) none).1.2
      ⟨['s'], rfl, by decide, by decide⟩,
   (handler_auth_unauthorized_iff none none).2 (Or.inl rfl)⟩

/-! ## Line grouper (C7) -/

theorem gilLoop_eq_claim (tol : ℚ) (rest : List TextItem)
    (lines : List (List TextItem)) (cur : List TextItem) (cy : ℚ)
    (hcur : cur ≠ []) :
    gilLoop tol rest lines cur (some cy) = lines ++ linesClaimGo tol cy cur rest := by
  induction rest generalizing lines cur cy with
  | nil =>
    simp only [gilLoop, if_neg hcur, linesClaimGo]
  | cons it rest ih =>
    simp only [gilLoop, if_neg hcur, linesClaimGo]
    by_cases hgap : |it.y - cy| > tol
    · rw [if_pos (by simpa using hgap), if_pos hgap]
      rw [ih (lines ++ [cur]) [it] it.y (by simp)]
      simp
    · rw [if_neg (by simpa using hgap), if_neg hgap]
      exact ih lines (cur ++ [it]) cy (by simp)

/-- C7: the line grouper anchors each open line at its *first* item's y and
starts a new line exactly when the current item's y differs from that anchor
by more than the tolerance, closing the final open line and sorting each line
by x; concretely, two words with y-gap 1 form one line and with y-gap 6 two
lines. -/
theorem group_into_lines_anchor_spec (tol : ℚ) (items : List TextItem) :
    group_into_lines items tol =
      (linesClaim tol items).map (fun line => sortLE xLE line) ∧
    (group_into_lines [⟨['a'], 0, 0, 1, 1, 1⟩, ⟨['b'], 0, 1, 1, 1, 1⟩] 5) =
      [[⟨['a'], 0, 0, 1, 1, 1⟩, ⟨['b'], 0, 1, 1, 1, 1⟩]] ∧
    (group_into_lines [⟨['a'], 0, 0, 1, 1, 1⟩, ⟨['b'], 0, 6, 1, 1, 1⟩] 5) =
      [[⟨['a'], 0, 0, 1, 1, 1⟩], [⟨['b'], 0, 6, 1, 1, 1⟩]] := by
  refine ⟨?_, by decide, by decide⟩
  cases items with
  | nil => rfl
  | cons it rest =>
    simp only [group_into_lines, linesClaim]
    congr 1
    have : gilLoop tol (it :: rest) [] [] none =
        gilLoop tol rest [] [it] (some it.y) := by
      simp [gilLoop]
    rw [this, gilLoop_eq_claim tol rest [] [it] it.y (by simp)]
    simp

/-! ## Image chunk builder (C6) -/

theorem dedupImages_eq_retained (l acc : List ImageItem) :
    dedupImages acc l = acc ++ retainedClaim acc l := by
  induction l generalizing acc with
  | nil => simp [dedupImages, retainedClaim]
  | cons img rest ih =>
    by_cases h : acc.any (fun e => imgCenterClose e img) = true
    · rw [dedupImages, if_pos h, ih]
      have hall : ¬ (acc.all (fun e => !imgCenterClose e img) = true) := by
        simp only [List.any_eq_true] at h
        simp only [List.all_eq_true, Bool.not_eq_true']
        push_neg
        rcases h with ⟨e, he, hc⟩
        exact ⟨e, he, by simp [hc]⟩
      rw [retainedClaim, if_neg hall]
    · rw [dedupImages, if_neg h, ih]
      have hall : acc.all (fun e => !imgCenterClose e img) = true := by
        simp only [List.all_eq_true, Bool.not_eq_true']
        intro e he
        simp only [List.any_eq_true] at h
        push_neg at h
        simpa using h e he
      rw [retainedClaim, if_pos hall]
      simp

theorem mem_dedupImages {x : ImageItem} {acc l : List ImageItem}
    (h : x ∈ dedupImages acc l) : x ∈ acc ∨ x ∈ l := by
  induction l generalizing acc with
  | nil => simp [dedupImages] at h; exact Or.inl h
  | cons img rest ih =>
    rw [dedupImages] at h
    by_cases hc : acc.any (fun e => imgCenterClose e img) = true
    · rw [if_pos hc] at h
      rcases ih h with h' | h'
      · exact Or.inl h'
      · exact Or.inr (List.mem_cons_of_mem _ h')
    · rw [if_neg hc] at h
      rcases ih h with h' | h'
      · rcases List.mem_append.1 h' with h'' | h''
        · exact Or.inl h''
        · simp only [List.mem_singleton] at h''
          exact Or.inr (h'' ▸ List.mem_cons_self _ _)
      · exact Or.inr (List.mem_cons_of_mem _ h')

theorem imagePages_pairwise (items : List ImageItem) :
    (imagePages items).Pairwise (· ≤ ·) := by
  have hsorted : (sortLE (fun a b => decide (a ≤ b))
      (items.map (fun i => i.pageNumber))).Pairwise
      (fun a b => decide (a ≤ b) = true) :=
    pairwise_sortLE (fun a b => by simp [Nat.le_total])
      (fun a b c h1 h2 => by
        simp only [decide_eq_true_eq] at h1 h2 ⊢
        exact le_trans h1 h2)
      (items.map (fun i => i.pageNumber))
  have := List.Pairwise.sublist (List.dedup_sublist _) hsorted
  exact this.imp (fun h => by simpa using h)

theorem pages_flatMap_pairwise {f : ℕ → List SemanticChunk}
    (hf : ∀ p c, c ∈ f p → c.page_number = p) (ps : List ℕ)
    (hps : ps.Pairwise (· ≤ ·)) :
    ((ps.flatMap f).map (fun c => c.page_number)).Pairwise (· ≤ ·) := by
  induction ps with
  | nil => simp
  | cons p ps ih =>
    rcases List.pairwise_cons.1 hps with ⟨hle, hps'⟩
    simp only [List.flatMap_cons, List.map_append]
    rw [List.pairwise_append]
    refine ⟨?_, ih hps', ?_⟩
    · apply List.pairwise_of_forall_mem_list
      intro a ha b hb
      simp only [List.mem_map] at ha hb
      rcases ha with ⟨ca, hca, rfl⟩
      rcases hb with ⟨cb, hcb, rfl⟩
      rw [hf p ca hca, hf p cb hcb]
    · intro a ha b hb
      simp only [List.mem_map] at ha hb
      rcases ha with ⟨ca, hca, rfl⟩
      rcases hb with ⟨cb, hcb, rfl⟩
      simp only [List.mem_flatMap] at hcb
      rcases hcb with ⟨q, hq, hcb⟩
      rw [hf p ca hca, hf q cb hcb]
      exact hle q hq

/-- C6: the image chunk builder equals the claim-side description — pages
ascending, each page's images sorted by (y, x), an image retained iff no
earlier-retained image has both center coordinates within 15 units, one
`is_image` chunk per retained image whose box is the image's rectangle —
and the Scenario D input yields exactly one chunk. -/
theorem create_image_chunks_spec (items : List ImageItem) :
    create_image_chunks items =
      (imagePages items).flatMap (fun p =>
        (retainedClaim []
          (sortLE imgLE (items.filter (fun i => i.pageNumber == p)))).map
          mkImageChunk) ∧
    ((create_image_chunks items).map (fun c => c.page_number)).Pairwise (· ≤ ·) ∧
    (∀ c ∈ create_image_chunks items, c.is_image = true ∧
      ∃ img ∈ items, c.page_number = img.pageNumber ∧
        c.x_min = .fin img.x ∧ c.x_max = .fin (img.x + img.width) ∧
        c.y_min = .fin img.y ∧ c.y_max = .fin (img.y + img.height)) ∧
    (create_image_chunks
      [⟨100, 100, 50, 50, 2, ['a']⟩, ⟨105, 103, 50, 50, 2, ['b']⟩]).length = 1 := by
  have heq : create_image_chunks items =
      (imagePages items).flatMap (fun p =>
        (retainedClaim []
          (sortLE imgLE (items.filter (fun i => i.pageNumber == p)))).map
          mkImageChunk) := by
    simp only [create_image_chunks]
    congr 1
    funext p
    rw [dedupImages_eq_retained]
    simp
  have hmem : ∀ c ∈ create_image_chunks items, c.is_image = true ∧
      ∃ img ∈ items, c.page_number = img.pageNumber ∧
        c.x_min = .fin img.x ∧ c.x_max = .fin (img.x + img.width) ∧
        c.y_min = .fin img.y ∧ c.y_max = .fin (img.y + img.height) := by
    intro c hc
    simp only [create_image_chunks, List.mem_flatMap] at hc
    rcases hc with ⟨p, _, hc⟩
    simp only [List.mem_map] at hc
    rcases hc with ⟨img, himg, rfl⟩
    have himg' : img ∈ items := by
      rcases mem_dedupImages himg with h | h
      · simp at h
      · have := mem_sortLE.1 h
        exact List.mem_of_mem_filter this
    exact ⟨rfl, img, himg', rfl, rfl, rfl, rfl, rfl⟩
  refine ⟨heq, ?_, hmem, by decide⟩
  have hf : ∀ p c, c ∈ (fun p =>
      (dedupImages []
        (sortLE imgLE (items.filter (fun i => i.pageNumber == p)))).map
        mkImageChunk) p → c.page_number = p := by
    intro p c hc
    simp only [List.mem_map] at hc
    rcases hc with ⟨img, himg, rfl⟩
    have himg' : img ∈ items.filter (fun i => i.pageNumber == p) := by
      rcases mem_dedupImages himg with h | h
      · simp at h
      · exact mem_sortLE.1 h
    have := List.of_mem_filter himg'
    simpa [mkImageChunk] using this
  have : create_image_chunks items =
      (imagePages items).flatMap (fun p =>
        (dedupImages []
          (sortLE imgLE (items.filter (fun i => i.pageNumber == p)))).map
          mkImageChunk) := rfl
  rw [this]
  exact pages_flatMap_pairwise hf (imagePages items) (imagePages_pairwise items)

/-- Closed witness for `create_image_chunks_spec` (the membership conjunct
has hypotheses): instantiated at the Scenario D input and its single output
chunk. -/
theorem create_image_chunks_spec_witness :
    (create_image_chunks
      [⟨100, 100, 50, 50, 2, ['a']⟩, ⟨105, 103, 50, 50, 2, ['b']⟩]).length = 1 ∧
    mkImageChunk ⟨100, 100, 50, 50, 2, ['a']⟩ ∈
      create_image_chunks
        [⟨100, 100, 50, 50, 2, ['a']⟩, ⟨105, 103, 50, 50, 2, ['b']⟩] ∧
    ((mkImageChunk ⟨100, 100, 50, 50, 2, ['a']⟩).is_image = true ∧
      ∃ img ∈ ([⟨100, 100, 50, 50, 2, ['a']⟩,
                ⟨105, 103, 50, 50, 2, ['b']⟩] : List ImageItem),
        (mkImageChunk ⟨100, 100, 50, 50, 2, ['a']⟩).page_number = img.pageNumber ∧
        (mkImageChunk ⟨100, 100, 50, 50, 2, ['a']⟩).x_min = .fin img.x ∧
        (mkImageChunk ⟨100, 100, 50, 50, 2, ['a']⟩).x_max = .fin (img.x + img.width) ∧
        (mkImageChunk ⟨100, 100, 50, 50, 2, ['a']⟩).y_min = .fin img.y ∧
        (mkImageChunk ⟨100, 100, 50, 50, 2, ['a']⟩).y_max = .fin (img.y + img.height)) :=
  ⟨(create_image_chunks_spec
      [⟨100, 100, 50, 50, 2, ['a']⟩, ⟨105, 103, 50, 50, 2, ['b']⟩]).2.2.2,
   by decide,
   (create_image_chunks_spec
      [⟨100, 100, 50, 50, 2, ['a']⟩, ⟨105, 103, 50, 50, 2, ['b']⟩]).2.2.1
     (mkImageChunk ⟨100, 100, 50, 50, 2, ['a']⟩) (by decide)⟩

/-! ## String lemmas: whitespace-insensitive content -/

theorem stripWs_append (a b : Str) :
    stripWs (a ++ b) = stripWs a ++ stripWs b := by
  simp [stripWs]

theorem stripWs_nil : stripWs [] = [] := rfl

theorem stripWs_space_cons (l : Str) : stripWs (' ' :: l) = stripWs l := by
  simp [stripWs, pyIsSpace]

theorem stripWs_dropWhile (l : Str) :
    stripWs (l.dropWhile pyIsSpace) = stripWs l := by
  induction l with
  | nil => rfl
  | cons c cs ih =>
    by_cases h : pyIsSpace c = true
    · rw [List.dropWhile_cons_of_pos h, ih]
      simp [stripWs, h]
    · rw [List.dropWhile_cons_of_neg (by simp [h])]

theorem stripWs_reverse (l : Str) : stripWs l.reverse = (stripWs l).reverse := by
  simp [stripWs]

theorem stripWs_pyLStrip (l : Str) : stripWs (pyLStrip l) = stripWs l :=
  stripWs_dropWhile l

theorem stripWs_pyRStrip (l : Str) : stripWs (pyRStrip l) = stripWs l := by
  rw [pyRStrip, stripWs_reverse, stripWs_dropWhile, stripWs_reverse,
    List.reverse_reverse]

theorem stripWs_pyStrip (l : Str) : stripWs (pyStrip l) = stripWs l := by
  rw [pyStrip, stripWs_pyRStrip, stripWs_pyLStrip]

theorem dropWhile_dropWhile (p : α → Bool) (l : List α) :
    (l.dropWhile p).dropWhile p = l.dropWhile p := by
  induction l with
  | nil => rfl
  | cons c cs ih =>
    by_cases h : p c = true
    · rw [List.dropWhile_cons_of_pos h, ih]
    · rw [List.dropWhile_cons_of_neg (by simp [h]),
        List.dropWhile_cons_of_neg (by simp [h])]

theorem pyLStrip_idem (l : Str) : pyLStrip (pyLStrip l) = pyLStrip l :=
  dropWhile_dropWhile pyIsSpace l

theorem pyRStrip_idem (l : Str) : pyRStrip (pyRStrip l) = pyRStrip l := by
  simp only [pyRStrip, List.reverse_reverse, dropWhile_dropWhile]

theorem pyLStrip_pyRStrip_of_lstripped (u : Str) (h : pyLStrip u = u) :
    pyLStrip (pyRStrip u) = pyRStrip u := by
  cases u with
  | nil => rfl
  | cons c v =>
    have hc : ¬ pyIsSpace c = true := by
      intro hw
      have h1 : pyLStrip (c :: v) = pyLStrip v := List.dropWhile_cons_of_pos hw
      have h2 : (pyLStrip v).length ≤ v.length :=
        (List.dropWhile_sublist pyIsSpace).length_le
      rw [h] at h1
      have : (c :: v).length ≤ v.length := h1 ▸ h2
      simp at this
    rw [pyRStrip, List.reverse_cons, List.dropWhile_append]
    by_cases he : ((v.reverse).dropWhile pyIsSpace).isEmpty = true
    · rw [if_pos he, List.dropWhile_cons_of_neg hc]
      simp [pyLStrip, List.dropWhile_cons_of_neg hc]
    · rw [if_neg he]
      rw [List.reverse_append]
      simp only [List.reverse_cons, List.reverse_nil, List.nil_append,
        List.singleton_append]
      exact List.dropWhile_cons_of_neg hc

theorem pyStrip_idem (l : Str) : pyStrip (pyStrip l) = pyStrip l := by
  rw [pyStrip, pyStrip, pyLStrip_pyRStrip_of_lstripped (pyLStrip l) (pyLStrip_idem l),
    pyRStrip_idem]

theorem stripWs_pyJoinSp (xs : List Str) :
    stripWs (pyJoinSp xs) = (xs.map stripWs).flatten := by
  match xs with
  | [] => rfl
  | [x] => simp [pyJoinSp]
  | x :: y :: t =>
    have ih := stripWs_pyJoinSp (y :: t)
    rw [show pyJoinSp (x :: y :: t) = x ++ ' ' :: pyJoinSp (y :: t) from rfl,
      stripWs_append, stripWs_space_cons, ih]
    simp

theorem stripWs_pyReplaceNl (s : Str) : stripWs (pyReplaceNl s) = stripWs s := by
  induction s with
  | nil => rfl
  | cons c cs ih =>
    by_cases h : c = '\n'
    · subst h
      simp [pyReplaceNl, stripWs, pyIsSpace] at ih ⊢
      exact ih
    · have : pyReplaceNl (c :: cs) = c :: pyReplaceNl cs := by
        simp [pyReplaceNl, h]
      rw [this]
      by_cases hw : pyIsSpace c = true
      · simp [stripWs, hw] at ih ⊢
        exact ih
      · simp [stripWs, hw] at ih ⊢
        exact ih

theorem stripWs_pySplitSpAux (s : List Char) (cur : Str) :
    (((pySplitSpAux s cur).map stripWs)).flatten =
      stripWs cur.reverse ++ stripWs s := by
  induction s generalizing cur with
  | nil => simp [pySplitSpAux, stripWs]
  | cons c cs ih =>
    by_cases h : c = ' '
    · subst h
      have hstep : pySplitSpAux (' ' :: cs) cur = cur.reverse :: pySplitSpAux cs [] := by
        rw [pySplitSpAux, if_pos rfl]
      rw [hstep]
      simp only [List.map_cons, List.flatten_cons]
      rw [ih [], stripWs_space_cons]
      simp [stripWs_nil]
    · rw [pySplitSpAux, if_neg h, ih]
      have : stripWs (c :: cs) = stripWs [c] ++ stripWs cs := by
        simpa using stripWs_append [c] cs
      rw [this]
      simp [stripWs_append, stripWs, List.filter_append]

theorem stripWs_pySplitSp (s : Str) :
    ((pySplitSp s).map stripWs).flatten = stripWs s := by
  simpa [stripWs] using stripWs_pySplitSpAux s []

/-! ## Oversize splitter lemmas -/

theorem splitLoop_parts_spec (tokens : List Str) (buf : Str) (parts : List Str) :
    ∀ p ∈ (splitLoop tokens buf parts).1,
      p ∈ parts ∨ (120 ≤ p.length ∧ endsSentencePunct p = true ∧ pyStrip p = p) := by
  induction tokens generalizing buf parts with
  | nil =>
    intro p hp
    exact Or.inl hp
  | cons t ts ih =>
    intro p hp
    rw [splitLoop] at hp
    by_cases ht : t = []
    · rw [if_pos ht] at hp
      exact ih buf parts p hp
    · rw [if_neg ht] at hp
      by_cases hseal : (120 ≤ (pyStrip (buf ++ ' ' :: t)).length &&
          endsSentencePunct (pyStrip (buf ++ ' ' :: t))) = true
      · rw [if_pos hseal] at hp
        rcases ih [] (parts ++ [pyStrip (buf ++ ' ' :: t)]) p hp with h | h
        · rcases List.mem_append.1 h with h' | h'
          · exact Or.inl h'
          · simp only [List.mem_singleton] at h'
            subst h'
            simp only [Bool.and_eq_true, decide_eq_true_eq] at hseal
            exact Or.inr ⟨hseal.1, hseal.2, pyStrip_idem _⟩
        · exact Or.inr h
      · rw [if_neg hseal] at hp
        exact ih (pyStrip (buf ++ ' ' :: t)) parts p hp

theorem splitLoop_stripWs (tokens : List Str) (buf : Str) (parts : List Str) :
    ((splitLoop tokens buf parts).1.map stripWs).flatten ++
      stripWs (splitLoop tokens buf parts).2 =
    (parts.map stripWs).flatten ++ stripWs buf ++ (tokens.map stripWs).flatten := by
  induction tokens generalizing buf parts with
  | nil => simp [splitLoop]
  | cons t ts ih =>
    rw [splitLoop]
    by_cases ht : t = []
    · rw [if_pos ht, ih]
      subst ht
      simp [stripWs]
    · rw [if_neg ht]
      have hbuf : stripWs (pyStrip (buf ++ ' ' :: t)) = stripWs buf ++ stripWs t := by
        rw [stripWs_pyStrip, stripWs_append, stripWs_space_cons]
      by_cases hseal : (120 ≤ (pyStrip (buf ++ ' ' :: t)).length &&
          endsSentencePunct (pyStrip (buf ++ ' ' :: t))) = true
      · rw [if_pos hseal, ih]
        simp only [List.map_append, List.flatten_append, List.map_cons,
          List.flatten_cons, List.map_nil, List.flatten_nil, stripWs_nil,
          List.append_nil, List.nil_append]
        rw [hbuf]
        simp [List.append_assoc]
      · rw [if_neg hseal, ih, hbuf]
        simp

theorem splitLoop_leftover_strip (tokens : List Str) (buf : Str) (parts : List Str)
    (h : pyStrip buf = buf) :
    pyStrip (splitLoop tokens buf parts).2 = (splitLoop tokens buf parts).2 := by
  induction tokens generalizing buf parts with
  | nil => exact h
  | cons t ts ih =>
    rw [splitLoop]
    by_cases ht : t = []
    · rw [if_pos ht]
      exact ih buf parts h
    · rw [if_neg ht]
      by_cases hseal : (120 ≤ (pyStrip (buf ++ ' ' :: t)).length &&
          endsSentencePunct (pyStrip (buf ++ ' ' :: t))) = true
      · rw [if_pos hseal]
        exact ih [] _ rfl
      · rw [if_neg hseal]
        exact ih _ parts (pyStrip_idem _)

theorem oversizeParts_stripWs (content : Str) :
    ((oversizeParts content).map stripWs).flatten = stripWs content := by
  have hcons := splitLoop_stripWs (pySplitSp (pyReplaceNl content)) [] []
  have htok : ((pySplitSp (pyReplaceNl content)).map stripWs).flatten =
      stripWs content := by
    rw [stripWs_pySplitSp, stripWs_pyReplaceNl]
  rw [htok] at hcons
  have hS : splitOversize content =
      splitLoop (pySplitSp (pyReplaceNl content)) [] [] := rfl
  rw [← hS] at hcons
  simp only [List.map_nil, List.flatten_nil, List.nil_append, stripWs_nil,
    List.append_nil] at hcons
  rw [oversizeParts]
  by_cases h : (splitOversize content).2 = []
  · rw [if_neg (by simp [h]), List.append_nil, ← hcons, h, stripWs_nil,
      List.append_nil]
  · rw [if_pos h, List.map_append, List.flatten_append, ← hcons]
    simp

theorem oversizeParts_ne_nil (content : Str) (h : stripWs content ≠ []) :
    oversizeParts content ≠ [] := by
  intro hnil
  have := oversizeParts_stripWs content
  rw [hnil] at this
  exact h (by simpa using this.symm)

set_option maxRecDepth 8000 in
/-- C5: the oversize splitter is total and lossless: on any finished chunk
content over budget it returns at least one part, the parts concatenated
(ignoring whitespace) reproduce the content, under-budget chunks pass
through unchanged, and a 250-character no-punctuation content yields exactly
the single leftover-flush part. -/
theorem oversize_split_total_coverage (content : Str) (max_chars : ℕ)
    (hne : stripWs content ≠ []) (hover : max_chars < content.length) :
    oversizeParts content ≠ [] ∧
    ((oversizeParts content).map stripWs).flatten = stripWs content ∧
    (∀ ch : SemanticChunk, ch.content.length ≤ max_chars →
      postProcessChunk max_chars ch = [ch]) ∧
    oversizeParts (List.replicate 250 'a') = [List.replicate 250 'a'] := by
  refine ⟨oversizeParts_ne_nil content hne, oversizeParts_stripWs content,
    ?_, by decide⟩
  intro ch hch
  rw [postProcessChunk, if_pos hch]

set_option maxRecDepth 8000 in
/-- Closed witness for `oversize_split_total_coverage` at the 250-character
no-punctuation content with the default budget 200. -/
theorem oversize_split_total_coverage_witness :
    stripWs (List.replicate 250 'a') ≠ [] ∧
    (200 : ℕ) < (List.replicate 250 'a' : Str).length ∧
    oversizeParts (List.replicate 250 'a') ≠ [] ∧
    ((oversizeParts (List.replicate 250 'a')).map stripWs).flatten =
      stripWs (List.replicate 250 'a') :=
  ⟨by decide, by decide,
   (oversize_split_total_coverage (List.replicate 250 'a') 200
      (by decide) (by decide)).1,
   (oversize_split_total_coverage (List.replicate 250 'a') 200
      (by decide) (by decide)).2.1⟩

set_option maxRecDepth 8000 in
/-- C2 (counterexample): a page with one 250-character word ending in `.`
produces a single chunk that is a *sealed* part of the splitter (the
leftover buffer is empty), yet its content length 250 exceeds
max_chars = 200 — refuting "every non-leftover chunk is within budget". -/
theorem oversize_sealed_part_exceeds_budget :
    ((create_semantic_chunks_for_page
        [⟨List.replicate 249 'x' ++ ['.'], 0, 0, 10, 10, 1⟩] 1 200).map
      (fun c => c.content)) = [List.replicate 249 'x' ++ ['.']] ∧
    (splitOversize (List.replicate 249 'x' ++ ['.'])).1 =
      [List.replicate 249 'x' ++ ['.']] ∧
    (splitOversize (List.replicate 249 'x' ++ ['.'])).2 = [] ∧
    200 < (List.replicate 249 'x' ++ ['.'] : Str).length := by
  refine ⟨by decide, by decide, by decide, by decide⟩

theorem mem_reindexFrom {x : SemanticChunk} {n : ℕ} {l : List SemanticChunk}
    (h : x ∈ reindexFrom n l) : ∃ y ∈ l, ∃ m, x = { y with chunk_index := m } := by
  induction l generalizing n with
  | nil => simp [reindexFrom] at h
  | cons c cs ih =>
    rw [reindexFrom] at h
    rcases List.mem_cons.1 h with heq | h'
    · exact ⟨c, List.mem_cons_self c cs, n, heq⟩
    · rcases ih h' with ⟨y, hy, m, hm⟩
      exact ⟨y, List.mem_cons_of_mem _ hy, m, hm⟩

/-- C2 (amended): after the splitter, every text chunk either is within the
length budget, or is a sealed part — guaranteed to be at least 120
characters and to end in `.`, `!` or `?`, but *not* bounded by max_chars —
or is the leftover-flush part of some oversized accumulator chunk. -/
theorem create_semantic_chunks_length_budget (page_items : List TextItem)
    (page_number max_chars : ℕ) :
    ∀ ch ∈ create_semantic_chunks_for_page page_items page_number max_chars,
      ch.content.length ≤ max_chars ∨
      (120 ≤ ch.content.length ∧ endsSentencePunct ch.content = true) ∨
      (∃ c ∈ accumulate_page_chunks page_items page_number max_chars,
        max_chars < c.content.length ∧
        ch.content = (splitOversize c.content).2) := by
  intro ch hch
  rw [create_semantic_chunks_for_page] at hch
  rcases mem_reindexFrom hch with ⟨y, hy, m, rfl⟩
  simp only [List.mem_flatMap] at hy
  rcases hy with ⟨c, hc, hyc⟩
  rw [postProcessChunk] at hyc
  by_cases hlen : c.content.length ≤ max_chars
  · rw [if_pos hlen] at hyc
    simp only [List.mem_singleton] at hyc
    subst hyc
    exact Or.inl hlen
  · rw [if_neg hlen] at hyc
    simp only [List.mem_map] at hyc
    rcases hyc with ⟨p, hp, rfl⟩
    rw [oversizeParts] at hp
    rcases List.mem_append.1 hp with hp' | hp'
    · rcases splitLoop_parts_spec _ _ _ p hp' with h | ⟨h1, h2, h3⟩
      · simp at h
      · refine Or.inr (Or.inl ?_)
        simp only [h3]
        exact ⟨h1, h2⟩
    · by_cases hlo : (splitOversize c.content).2 = []
      · rw [if_neg (by simp [hlo])] at hp'
        simp at hp'
      · rw [if_pos hlo] at hp'
        simp only [List.mem_singleton] at hp'
        subst hp'
        refine Or.inr (Or.inr ⟨c, hc, Nat.lt_of_not_le hlen, ?_⟩)
        simp only []
        rw [splitOversize] at hlo ⊢
        exact splitLoop_leftover_strip _ _ _ rfl

set_option maxRecDepth 8000 in
/-- Closed witness for `create_semantic_chunks_length_budget` at the
counterexample input: the single output chunk falls in the sealed-part
disjunct. -/
theorem create_semantic_chunks_length_budget_witness :
    (⟨List.replicate 249 'x' ++ ['.'], 1, .fin 0, .fin 10, .fin 0, .fin 10,
        0, false⟩ : SemanticChunk) ∈
      create_semantic_chunks_for_page
        [⟨List.replicate 249 'x' ++ ['.'], 0, 0, 10, 10, 1⟩] 1 200 ∧
    ((⟨List.replicate 249 'x' ++ ['.'], 1, .fin 0, .fin 10, .fin 0, .fin 10,
        0, false⟩ : SemanticChunk).content.length ≤ 200 ∨
     (120 ≤ (⟨List.replicate 249 'x' ++ ['.'], 1, .fin 0, .fin 10, .fin 0,
        .fin 10, 0, false⟩ : SemanticChunk).content.length ∧
      endsSentencePunct (⟨List.replicate 249 'x' ++ ['.'], 1, .fin 0, .fin 10,
        .fin 0, .fin 10, 0, false⟩ : SemanticChunk).content = true) ∨
     (∃ c ∈ accumulate_page_chunks
          [⟨List.replicate 249 'x' ++ ['.'], 0, 0, 10, 10, 1⟩] 1 200,
        200 < c.content.length ∧
        (⟨List.replicate 249 'x' ++ ['.'], 1, .fin 0, .fin 10, .fin 0, .fin 10,
          0, false⟩ : SemanticChunk).content = (splitOversize c.content).2)) :=
  ⟨by decide,
   create_semantic_chunks_length_budget
     [⟨List.replicate 249 'x' ++ ['.'], 0, 0, 10, 10, 1⟩] 1 200
     ⟨List.replicate 249 'x' ++ ['.'], 1, .fin 0, .fin 10, .fin 0, .fin 10,
       0, false⟩ (by decide)⟩

/-! ## Accumulator split decision (C4) -/

theorem endsSentencePunct_nil : endsSentencePunct [] = false := rfl

theorem addLine_prev (s : AccState) (line : List TextItem) :
    (addLine s line).prev_line_bottom = s.prev_line_bottom := by
  induction line generalizing s with
  | nil => rfl
  | cons it rest ih => exact ih _

theorem flush_prev (pn : ℕ) (st : AccState) :
    (flush_chunk pn st).prev_line_bottom = st.prev_line_bottom := by
  rw [flush_chunk]
  split <;> rfl

/-- C4: in the accumulation loop, a flush happens before adding a line iff
the accumulator is non-empty and at least one of the four predicates fires
(bullet, paragraph break, candidate length over budget, accumulated text
ending a sentence); in particular the sentence-end predicate alone forces a
split, regardless of the candidate length. -/
theorem accumulator_split_decision (pn mc : ℕ) (st : AccState)
    (line : List TextItem) :
    (stepLine pn mc st line =
      if st.cur_text_items ≠ [] ∧
          (is_bullet_line (pyStrip (pyJoinSp (line.map (fun t => t.text)))) = true ∨
           paragraph_break st.prev_line_bottom line = true ∨
           mc < (candidateText st line).length ∨
           endsSentencePunct (joinedText st.cur_text_items) = true)
       then { addLine (flush_chunk pn st) line with
              prev_line_bottom := lineBottom line st.prev_line_bottom }
       else { addLine st line with
              prev_line_bottom := lineBottom line st.prev_line_bottom }) ∧
    (st.cur_text_items ≠ [] →
      endsSentencePunct (joinedText st.cur_text_items) = true →
      stepLine pn mc st line =
        { addLine (flush_chunk pn st) line with
          prev_line_bottom := lineBottom line st.prev_line_bottom }) := by
  have hends : (if joinedText st.cur_text_items ≠ [] then
      endsSentencePunct (joinedText st.cur_text_items) else false) =
      endsSentencePunct (joinedText st.cur_text_items) := by
    by_cases h : joinedText st.cur_text_items = []
    · rw [if_neg (by simp [h]), h, endsSentencePunct_nil]
    · rw [if_pos h]
  have hmain : stepLine pn mc st line =
      if st.cur_text_items ≠ [] ∧
          (is_bullet_line (pyStrip (pyJoinSp (line.map (fun t => t.text)))) = true ∨
           paragraph_break st.prev_line_bottom line = true ∨
           mc < (candidateText st line).length ∨
           endsSentencePunct (joinedText st.cur_text_items) = true)
       then { addLine (flush_chunk pn st) line with
              prev_line_bottom := lineBottom line st.prev_line_bottom }
       else { addLine st line with
              prev_line_bottom := lineBottom line st.prev_line_bottom } := by
    simp only [stepLine]
    rw [hends, addLine_prev]
    have hXprev : ∀ b : Bool,
        (if b = true then flush_chunk pn st else st).prev_line_bottom =
          st.prev_line_bottom := by
      intro b
      split
      · exact flush_prev pn st
      · rfl
    rw [hXprev]
    have hiff : (!st.cur_text_items.isEmpty &&
        (is_bullet_line (pyStrip (pyJoinSp (line.map (fun t => t.text)))) ||
         paragraph_break st.prev_line_bottom line ||
         decide (mc < (candidateText st line).length) ||
         endsSentencePunct (joinedText st.cur_text_items))) = true ↔
        (st.cur_text_items ≠ [] ∧
         (is_bullet_line (pyStrip (pyJoinSp (line.map (fun t => t.text)))) = true ∨
          paragraph_break st.prev_line_bottom line = true ∨
          mc < (candidateText st line).length ∨
          endsSentencePunct (joinedText st.cur_text_items) = true)) := by
      simp only [Bool.and_eq_true, Bool.or_eq_true, Bool.not_eq_true',
        decide_eq_true_eq, List.isEmpty_iff, List.isEmpty_eq_false]
      tauto
    by_cases hP : st.cur_text_items ≠ [] ∧
        (is_bullet_line (pyStrip (pyJoinSp (line.map (fun t => t.text)))) = true ∨
         paragraph_break st.prev_line_bottom line = true ∨
         mc < (candidateText st line).length ∨
         endsSentencePunct (joinedText st.cur_text_items) = true)
    · rw [if_pos hP, if_pos (hiff.2 hP)]
    · rw [if_neg hP, if_neg (fun hb => hP (hiff.1 hb))]
  refine ⟨hmain, ?_⟩
  intro h1 h2
  rw [hmain, if_pos ⟨h1, Or.inr (Or.inr (Or.inr h2))⟩]

/-- Closed witness for `accumulator_split_decision`: an accumulator holding
`"See details."` is flushed before the next line even though the combined
length is far under max_chars = 200 (Scenario B). -/
theorem accumulator_split_decision_witness :
    (⟨[], 0, [⟨"See details.".data, 0, 0, 5, 1, 1⟩], .fin 0, .fin 5, .fin 0,
        .fin 1, some 1⟩ : AccState).cur_text_items ≠ [] ∧
    endsSentencePunct (joinedText
      (⟨[], 0, [⟨"See details.".data, 0, 0, 5, 1, 1⟩], .fin 0, .fin 5, .fin 0,
        .fin 1, some 1⟩ : AccState).cur_text_items) = true ∧
    stepLine 1 200
      ⟨[], 0, [⟨"See details.".data, 0, 0, 5, 1, 1⟩], .fin 0, .fin 5, .fin 0,
        .fin 1, some 1⟩ [⟨"Next".data, 0, 10, 4, 1, 1⟩] =
      { addLine (flush_chunk 1
          ⟨[], 0, [⟨"See details.".data, 0, 0, 5, 1, 1⟩], .fin 0, .fin 5,
            .fin 0, .fin 1, some 1⟩) [⟨"Next".data, 0, 10, 4, 1, 1⟩] with
        prev_line_bottom := lineBottom [⟨"Next".data, 0, 10, 4, 1, 1⟩]
          (⟨[], 0, [⟨"See details.".data, 0, 0, 5, 1, 1⟩], .fin 0, .fin 5,
            .fin 0, .fin 1, some 1⟩ : AccState).prev_line_bottom } :=
  ⟨by decide, by decide,
   (accumulator_split_decision 1 200
      ⟨[], 0, [⟨"See details.".data, 0, 0, 5, 1, 1⟩], .fin 0, .fin 5, .fin 0,
        .fin 1, some 1⟩ [⟨"Next".data, 0, 10, 4, 1, 1⟩]).2
     (by decide) (by decide)⟩

/-! ## Word-stream conservation (C9) -/

/-- The whitespace-stripped text carried by an accumulator state: finished
chunks' contents followed by the pending items' texts. -/
def accText (st : AccState) : Str :=
  (st.chunks.map (fun c => stripWs c.content)).flatten ++
    (st.cur_text_items.map (fun t => stripWs t.text)).flatten

theorem reindexFrom_map_stripWs (n : ℕ) (l : List SemanticChunk) :
    (reindexFrom n l).map (fun c => stripWs c.content) =
      l.map (fun c => stripWs c.content) := by
  induction l generalizing n with
  | nil => rfl
  | cons c cs ih => simp [reindexFrom, ih]

theorem postProcessChunk_stripWs (mc : ℕ) (ch : SemanticChunk) :
    ((postProcessChunk mc ch).map (fun c => stripWs c.content)).flatten =
      stripWs ch.content := by
  rw [postProcessChunk]
  by_cases h : ch.content.length ≤ mc
  · rw [if_pos h]
    simp
  · rw [if_neg h]
    rw [List.map_map]
    have hmap : (oversizeParts ch.content).map
        ((fun c : SemanticChunk => stripWs c.content) ∘
          (fun p => (⟨pyStrip p, ch.page_number, ch.x_min, ch.x_max, ch.y_min,
            ch.y_max, 0, false⟩ : SemanticChunk))) =
        (oversizeParts ch.content).map stripWs := by
      apply List.map_congr_left
      intro p _
      simp only [Function.comp]
      exact stripWs_pyStrip p
    rw [hmap, oversizeParts_stripWs]

theorem postProcess_list_stripWs (mc : ℕ) (l : List SemanticChunk) :
    ((l.flatMap (postProcessChunk mc)).map (fun c => stripWs c.content)).flatten =
      (l.map (fun c => stripWs c.content)).flatten := by
  induction l with
  | nil => rfl
  | cons c cs ih =>
    simp only [List.flatMap_cons, List.map_append, List.flatten_append, ih,
      List.map_cons, List.flatten_cons, postProcessChunk_stripWs]

theorem joinedText_stripWs (items : List TextItem) :
    stripWs (joinedText items) = (items.map (fun t => stripWs t.text)).flatten := by
  rw [joinedText, stripWs_pyStrip, stripWs_pyJoinSp, List.map_map]
  rfl

theorem addLine_cur (s : AccState) (line : List TextItem) :
    (addLine s line).cur_text_items = s.cur_text_items ++ line := by
  induction line generalizing s with
  | nil => simp [addLine]
  | cons it rest ih =>
    show (addLine (addItem s it) rest).cur_text_items = _
    rw [ih]
    simp [addItem]

theorem addLine_chunks (s : AccState) (line : List TextItem) :
    (addLine s line).chunks = s.chunks := by
  induction line generalizing s with
  | nil => rfl
  | cons it rest ih =>
    show (addLine (addItem s it) rest).chunks = _
    rw [ih]
    rfl

theorem flush_cur (pn : ℕ) (st : AccState) :
    (flush_chunk pn st).cur_text_items = [] := by
  rw [flush_chunk]

theorem flush_accText (pn : ℕ) (st : AccState) :
    accText (flush_chunk pn st) = accText st := by
  rw [flush_chunk, accText, accText]
  by_cases h : joinedText st.cur_text_items ≠ []
  · rw [if_pos h]
    simp only [List.map_append, List.flatten_append, List.map_cons,
      List.flatten_cons, List.map_nil, List.flatten_nil, List.append_nil]
    rw [joinedText_stripWs]
  · rw [if_neg h]
    simp only [List.map_nil, List.flatten_nil, List.append_nil]
    have hj : joinedText st.cur_text_items = [] := not_not.1 h
    have hz : stripWs (joinedText st.cur_text_items) = [] := by rw [hj]; rfl
    rw [joinedText_stripWs] at hz
    rw [hz, List.append_nil]

theorem addLine_accText (s : AccState) (line : List TextItem) :
    accText (addLine s line) =
      accText s ++ (line.map (fun t => stripWs t.text)).flatten := by
  rw [accText, accText, addLine_cur, addLine_chunks]
  simp [List.append_assoc]

theorem stepLine_accText (pn mc : ℕ) (st : AccState) (line : List TextItem) :
    accText (stepLine pn mc st line) =
      accText st ++ (line.map (fun t => stripWs t.text)).flatten := by
  simp only [stepLine]
  have hupd : ∀ (x : AccState) (e : Option ℚ),
      accText { x with prev_line_bottom := e } = accText x := fun _ _ => rfl
  rw [hupd, addLine_accText]
  have hsplit : ∀ (b : Bool),
      accText (if b = true then flush_chunk pn st else st) = accText st := by
    intro b
    cases b
    · simp
    · simp [flush_accText]
  rw [hsplit]

theorem foldl_stepLine_accText (pn mc : ℕ) (lines : List (List TextItem))
    (st : AccState) :
    accText (List.foldl (stepLine pn mc) st lines) =
      accText st ++
        (lines.map (fun line => (line.map (fun t => stripWs t.text)).flatten)).flatten := by
  induction lines generalizing st with
  | nil => simp
  | cons l ls ih =>
    rw [List.foldl_cons, ih, stepLine_accText]
    simp [List.append_assoc]

theorem flatten_map_flatten (g : TextItem → Str) (ls : List (List TextItem)) :
    (ls.map (fun line => (line.map g).flatten)).flatten =
      ((ls.flatten).map g).flatten := by
  induction ls with
  | nil => rfl
  | cons l ls ih => simp [ih]

theorem accumulate_stripWs (page_items : List TextItem) (pn mc : ℕ) :
    ((accumulate_page_chunks page_items pn mc).map
      (fun c => stripWs c.content)).flatten =
    (((group_into_lines (sort_reading_order page_items) 5).flatten).map
      (fun it => stripWs it.text)).flatten := by
  rw [accumulate_page_chunks]
  have hend : ∀ (x : AccState), x.cur_text_items = [] →
      (x.chunks.map (fun c => stripWs c.content)).flatten = accText x := by
    intro x hx
    rw [accText, hx]
    simp
  set stf := List.foldl
    (stepLine pn mc)
    initAccState
    (group_into_lines (sort_reading_order page_items) 5) with hstf
  by_cases h : stf.cur_text_items ≠ []
  · rw [if_pos h, hend _ (flush_cur pn stf), flush_accText, hstf,
      foldl_stepLine_accText]
    rw [show accText initAccState = [] from rfl, List.nil_append,
      flatten_map_flatten]
  · rw [if_neg h, hend _ (not_not.1 (by simpa using h)), hstf,
      foldl_stepLine_accText]
    rw [show accText initAccState = [] from rfl, List.nil_append,
      flatten_map_flatten]

/-- C9 (counterexample): for a page whose two input items arrive out of
reading order, the chunker's output reproduces the *sorted* word stream, not
the original input stream — refuting the claim as stated. -/
theorem create_semantic_chunks_word_order_cex :
    ((create_semantic_chunks_for_page
        [⟨['b'], 0, 100, 1, 1, 1⟩, ⟨['a'], 0, 0, 1, 1, 1⟩] 1 200).map
      (fun c => stripWs c.content)).flatten ≠
    (([⟨['b'], 0, 100, 1, 1, 1⟩, ⟨['a'], 0, 0, 1, 1, 1⟩] : List TextItem).map
      (fun it => stripWs it.text)).flatten := by decide

/-- C9 (amended): the concatenation of a page's text chunks' contents,
ignoring whitespace, reproduces — in order, with nothing dropped or
duplicated — the page's word stream *after reading-order sorting and line
grouping* (lines in grouped order, each line sorted by x), rather than the
raw input order. -/
theorem create_semantic_chunks_no_data_loss (page_items : List TextItem)
    (page_number max_chars : ℕ) :
    ((create_semantic_chunks_for_page page_items page_number max_chars).map
      (fun c => stripWs c.content)).flatten =
    (((group_into_lines (sort_reading_order page_items) 5).flatten).map
      (fun it => stripWs it.text)).flatten := by
  rw [create_semantic_chunks_for_page, reindexFrom_map_stripWs,
    postProcess_list_stripWs, accumulate_stripWs]

/-! ## Bounding-box validity (C3) -/

theorem PyFloat.pymin_inf (q : ℚ) : PyFloat.inf.pymin q = .fin q := rfl

theorem PyFloat.pymax_ninf (q : ℚ) : PyFloat.ninf.pymax q = .fin q := rfl

theorem PyFloat.pymin_fin (a q : ℚ) :
    (PyFloat.fin a).pymin q = .fin (min a q) := by
  rw [PyFloat.pymin]
  by_cases h : a ≤ q
  · rw [if_pos (by simpa [PyFloat.ble] using h), min_eq_left h]
  · rw [if_neg (by simpa [PyFloat.ble] using h),
      min_eq_right (le_of_not_le h)]

theorem PyFloat.pymax_fin (b q : ℚ) :
    (PyFloat.fin b).pymax q = .fin (max b q) := by
  rw [PyFloat.pymax]
  by_cases h : q ≤ b
  · rw [if_pos (by simpa [PyFloat.ble] using h), max_eq_left h]
  · rw [if_neg (by simpa [PyFloat.ble] using h),
      max_eq_right (le_of_not_le h)]

theorem gilLoop_flatten (tol : ℚ) (items : List TextItem)
    (lines : List (List TextItem)) (cur : List TextItem) (cy : Option ℚ) :
    (gilLoop tol items lines cur cy).flatten = lines.flatten ++ cur ++ items := by
  induction items generalizing lines cur cy with
  | nil =>
    simp only [gilLoop]
    by_cases h : cur = []
    · rw [if_pos h, h]
      simp
    · rw [if_neg h]
      simp
  | cons it rest ih =>
    simp only [gilLoop]
    by_cases h : cur = []
    · rw [if_pos h, ih, h]
      simp
    · rw [if_neg h]
      by_cases hgap : (match cy with
          | none => true
          | some c => decide (|it.y - c| > tol)) = true
      · rw [if_pos hgap, ih]
        simp
      · rw [if_neg hgap, ih]
        simp

theorem mem_of_mem_group_into_lines {items : List TextItem} {tol : ℚ}
    {line : List TextItem} (hline : line ∈ group_into_lines items tol)
    {it : TextItem} (hit : it ∈ line) : it ∈ items := by
  rw [group_into_lines] at hline
  rcases List.mem_map.1 hline with ⟨l, hl, rfl⟩
  have hit' : it ∈ l := mem_sortLE.1 hit
  have : it ∈ (gilLoop tol items [] [] none).flatten :=
    List.mem_flatten.2 ⟨l, hl, hit'⟩
  rw [gilLoop_flatten] at this
  simpa using this

/-- State-level bounding-box validity: all four running bounds are finite
and correctly ordered. -/
def boxStValid (st : AccState) : Prop :=
  (∃ a b, st.x_min = .fin a ∧ st.x_max = .fin b ∧ a ≤ b) ∧
  (∃ a b, st.y_min = .fin a ∧ st.y_max = .fin b ∧ a ≤ b)

/-- The accumulator invariant for C3: finished chunks have valid boxes, an
empty pending list keeps the (infinite) initial box, and a non-empty
pending list has a finite valid box. -/
def accInv (st : AccState) : Prop :=
  (∀ c ∈ st.chunks, boxValid c = true) ∧
  (st.cur_text_items = [] → st.x_min = .inf ∧ st.x_max = .ninf ∧
    st.y_min = .inf ∧ st.y_max = .ninf) ∧
  (st.cur_text_items ≠ [] → boxStValid st)

theorem addItem_inv {st : AccState} {it : TextItem}
    (hw : 0 ≤ it.width) (hh : 0 ≤ it.height) (hinv : accInv st) :
    accInv (addItem st it) := by
  rcases hinv with ⟨hchunks, hempty, hne⟩
  refine ⟨hchunks, ?_, ?_⟩
  · intro h
    exfalso
    have : (addItem st it).cur_text_items = st.cur_text_items ++ [it] := rfl
    rw [this] at h
    simp at h
  · intro _
    by_cases hcur : st.cur_text_items = []
    · rcases hempty hcur with ⟨h1, h2, h3, h4⟩
      constructor
      · refine ⟨it.x, it.x + it.width, ?_, ?_, by linarith⟩
        · show st.x_min.pymin it.x = _
          rw [h1, PyFloat.pymin_inf]
        · show st.x_max.pymax (it.x + it.width) = _
          rw [h2, PyFloat.pymax_ninf]
      · refine ⟨it.y, it.y + it.height, ?_, ?_, by linarith⟩
        · show st.y_min.pymin it.y = _
          rw [h3, PyFloat.pymin_inf]
        · show st.y_max.pymax (it.y + it.height) = _
          rw [h4, PyFloat.pymax_ninf]
    · rcases hne hcur with ⟨⟨a, b, hxa, hxb, hxab⟩, ⟨c, d, hyc, hyd, hycd⟩⟩
      constructor
      · refine ⟨min a it.x, max b (it.x + it.width), ?_, ?_, ?_⟩
        · show st.x_min.pymin it.x = _
          rw [hxa, PyFloat.pymin_fin]
        · show st.x_max.pymax (it.x + it.width) = _
          rw [hxb, PyFloat.pymax_fin]
        · exact le_trans (min_le_left a it.x) (le_trans hxab (le_max_left _ _))
      · refine ⟨min c it.y, max d (it.y + it.height), ?_, ?_, ?_⟩
        · show st.y_min.pymin it.y = _
          rw [hyc, PyFloat.pymin_fin]
        · show st.y_max.pymax (it.y + it.height) = _
          rw [hyd, PyFloat.pymax_fin]
        · exact le_trans (min_le_left c it.y) (le_trans hycd (le_max_left _ _))

theorem addLine_inv {st : AccState} {line : List TextItem}
    (hdims : ∀ it ∈ line, 0 ≤ it.width ∧ 0 ≤ it.height) (hinv : accInv st) :
    accInv (addLine st line) := by
  induction line generalizing st with
  | nil => exact hinv
  | cons it rest ih =>
    show accInv (addLine (addItem st it) rest)
    have hit := hdims it (List.mem_cons_self it rest)
    exact ih (fun x hx => hdims x (List.mem_cons_of_mem _ hx))
      (addItem_inv hit.1 hit.2 hinv)

theorem mkChunkOf_boxValid (st : AccState) (pn : ℕ)
    (h : boxStValid st) :
    boxValid ⟨joinedText st.cur_text_items, pn, st.x_min, st.x_max, st.y_min,
      st.y_max, st.chunk_index, false⟩ = true := by
  rcases h with ⟨⟨a, b, hxa, hxb, hxab⟩, ⟨c, d, hyc, hyd, hycd⟩⟩
  simp [boxValid, hxa, hxb, hyc, hyd, PyFloat.isFin, PyFloat.ble, hxab, hycd]

theorem flush_inv {st : AccState} {pn : ℕ} (hinv : accInv st) :
    accInv (flush_chunk pn st) := by
  rcases hinv with ⟨hchunks, hempty, hne⟩
  rw [flush_chunk]
  by_cases h : joinedText st.cur_text_items ≠ []
  · rw [if_pos h]
    have hcur : st.cur_text_items ≠ [] := by
      intro hc
      apply h
      rw [hc]
      rfl
    refine ⟨?_, fun _ => ⟨rfl, rfl, rfl, rfl⟩, fun hc => absurd rfl hc⟩
    intro c hc
    rcases List.mem_append.1 hc with h' | h'
    · exact hchunks c h'
    · simp only [List.mem_singleton] at h'
      subst h'
      exact mkChunkOf_boxValid st pn (hne hcur)
  · rw [if_neg h]
    exact ⟨hchunks, fun _ => ⟨rfl, rfl, rfl, rfl⟩, fun hc => absurd rfl hc⟩

theorem stepLine_inv {st : AccState} {line : List TextItem} {pn mc : ℕ}
    (hdims : ∀ it ∈ line, 0 ≤ it.width ∧ 0 ≤ it.height) (hinv : accInv st) :
    accInv (stepLine pn mc st line) := by
  simp only [stepLine]
  have hupd : ∀ (x : AccState) (e : Option ℚ),
      accInv { x with prev_line_bottom := e } ↔ accInv x := fun _ _ => Iff.rfl
  rw [hupd]
  apply addLine_inv hdims
  have hsplit : ∀ (b : Bool), accInv (if b = true then flush_chunk pn st else st) := by
    intro b
    cases b
    · simpa using hinv
    · simpa using flush_inv hinv
  exact hsplit _

theorem foldl_stepLine_inv (pn mc : ℕ) {lines : List (List TextItem)}
    {st : AccState}
    (hdims : ∀ line ∈ lines, ∀ it ∈ line, 0 ≤ it.width ∧ 0 ≤ it.height)
    (hinv : accInv st) :
    accInv (List.foldl (stepLine pn mc) st lines) := by
  induction lines generalizing st with
  | nil => exact hinv
  | cons l ls ih =>
    rw [List.foldl_cons]
    exact ih (fun x hx => hdims x (List.mem_cons_of_mem _ hx))
      (stepLine_inv (hdims l (List.mem_cons_self l ls)) hinv)

theorem accumulate_boxValid {page_items : List TextItem} {pn mc : ℕ}
    (hdims : ∀ it ∈ page_items, 0 ≤ it.width ∧ 0 ≤ it.height) :
    ∀ c ∈ accumulate_page_chunks page_items pn mc, boxValid c = true := by
  rw [accumulate_page_chunks]
  have hlinedims : ∀ line ∈ group_into_lines (sort_reading_order page_items) 5,
      ∀ it ∈ line, 0 ≤ it.width ∧ 0 ≤ it.height := by
    intro line hline it hit
    exact hdims it (mem_sortLE.1 (mem_of_mem_group_into_lines hline hit))
  have hinit : accInv initAccState :=
    ⟨by intro c hc; simp [initAccState] at hc,
     fun _ => ⟨rfl, rfl, rfl, rfl⟩,
     fun h => absurd rfl h⟩
  have hfold := foldl_stepLine_inv pn mc hlinedims hinit
  split
  · exact (flush_inv hfold).1
  · exact hfold.1

theorem postProcessChunk_boxValid {mc : ℕ} {c : SemanticChunk}
    (hc : boxValid c = true) :
    ∀ c' ∈ postProcessChunk mc c, boxValid c' = true := by
  intro c' hc'
  rw [postProcessChunk] at hc'
  by_cases h : c.content.length ≤ mc
  · rw [if_pos h] at hc'
    simp only [List.mem_singleton] at hc'
    subst hc'
    exact hc
  · rw [if_neg h] at hc'
    simp only [List.mem_map] at hc'
    rcases hc' with ⟨p, _, rfl⟩
    simpa [boxValid] using hc

theorem reindexFrom_boxValid {l : List SemanticChunk} {n : ℕ}
    (hl : ∀ c ∈ l, boxValid c = true) :
    ∀ c ∈ reindexFrom n l, boxValid c = true := by
  intro c hc
  rcases mem_reindexFrom hc with ⟨y, hy, m, rfl⟩
  simpa [boxValid] using hl y hy

theorem create_semantic_chunks_boxValid {page_items : List TextItem}
    {pn mc : ℕ} (hdims : ∀ it ∈ page_items, 0 ≤ it.width ∧ 0 ≤ it.height) :
    ∀ c ∈ create_semantic_chunks_for_page page_items pn mc,
      boxValid c = true := by
  rw [create_semantic_chunks_for_page]
  apply reindexFrom_boxValid
  intro c hc
  simp only [List.mem_flatMap] at hc
  rcases hc with ⟨c0, hc0, hcc⟩
  exact postProcessChunk_boxValid (accumulate_boxValid hdims c0 hc0) c hcc

theorem create_image_chunks_boxValid {image_items : List ImageItem}
    (himg : ∀ im ∈ image_items, 0 < im.width ∧ 0 < im.height) :
    ∀ c ∈ create_image_chunks image_items, boxValid c = true := by
  intro c hc
  simp only [create_image_chunks, List.mem_flatMap] at hc
  rcases hc with ⟨p, _, hc⟩
  simp only [List.mem_map] at hc
  rcases hc with ⟨img, himgmem, rfl⟩
  have himg' : img ∈ image_items := by
    rcases mem_dedupImages himgmem with h | h
    · simp at h
    · exact List.mem_of_mem_filter (mem_sortLE.1 h)
  rcases himg img himg' with ⟨hw, hh⟩
  simp [mkImageChunk, boxValid, PyFloat.isFin, PyFloat.ble]
  constructor <;> linarith

/-- C3: every chunk emitted by the whole pipeline — text chunks from the
accumulator/splitter and image chunks from the image builder, merged and
re-indexed — has four finite bounding-box fields with x_min <= x_max and
y_min <= y_max, given word items with non-empty text and non-negative
dimensions and image items with positive dimensions. -/
theorem create_chunks_box_valid (text_items : List TextItem)
    (image_items : List ImageItem) (max_chars : ℕ)
    (htext : ∀ it ∈ text_items, it.text ≠ [] ∧ 0 ≤ it.width ∧ 0 ≤ it.height)
    (himg : ∀ im ∈ image_items, 0 < im.width ∧ 0 < im.height) :
    ∀ c ∈ (create_chunks text_items image_items max_chars).1,
      boxValid c = true := by
  intro c hc
  simp only [create_chunks, merge_chunks_in_reading_order] at hc
  rcases mem_reindexFrom hc with ⟨y, hy, m, rfl⟩
  have hy' := mem_sortLE.1 hy
  have hyv : boxValid y = true := by
    rcases List.mem_append.1 hy' with h | h
    · simp only [List.mem_flatMap] at h
      rcases h with ⟨p, _, h⟩
      exact create_semantic_chunks_boxValid
        (fun it hit => (htext it (List.mem_of_mem_filter hit)).2) y h
    · exact create_image_chunks_boxValid himg y h
  simpa [boxValid] using hyv

/-- Closed witness for `create_chunks_box_valid` at a one-word, one-image
document. -/
theorem create_chunks_box_valid_witness :
    (∀ it ∈ ([⟨['a'], 0, 0, 1, 1, 1⟩] : List TextItem),
      it.text ≠ [] ∧ 0 ≤ it.width ∧ 0 ≤ it.height) ∧
    (∀ im ∈ ([⟨5, 5, 2, 2, 1, ['i']⟩] : List ImageItem),
      0 < im.width ∧ 0 < im.height) ∧
    boxValid ⟨['a'], 1, .fin 0, .fin 1, .fin 0, .fin 1, 0, false⟩ = true :=
  ⟨by decide, by decide,
   create_chunks_box_valid [⟨['a'], 0, 0, 1, 1, 1⟩] [⟨5, 5, 2, 2, 1, ['i']⟩]
     200 (by decide) (by decide)
     ⟨['a'], 1, .fin 0, .fin 1, .fin 0, .fin 1, 0, false⟩ (by decide)⟩

end PdfChunker
